import Mathlib

/-!
# Verification of the ResourceProvider rule engine (lvl2.js)

Shallow embedding of src/lib/ResourceProvider.js: multi-glob key parsing and
normalization, rule registration with per-kind counters, exact-key lookup, and
path resolution (scan stored rules, glob-match, shallow-merge).

Conventions of the embedding:
* JavaScript strings are Lean `String`s, processed at the `List Char` level so
  that every definition is structurally recursive and kernel-evaluable.
* JavaScript values that can appear as rule fields or arguments are modelled by
  the flat inductive `JSVal`; `JSVal.other` tags any value that is neither a
  callable, a string, a boolean, an array of strings, nor a plain record
  (e.g. numbers or null).
* Plain objects are association lists `List (String × key)`; `objGet` returns
  the value of the last occurrence of a key, `objSet` updates a binding,
  matching the one-slot-per-key semantics of JavaScript objects.
* JavaScript exceptions (TypeError) are `Except String`.
* lodash `_.forOwn` iterates own enumerable keys in the ECMAScript own-property
  order: keys that are canonical array indices first, in ascending numeric
  order, then the remaining string keys in insertion order (`jsOrder` below).
-/

deriving instance DecidableEq for Except

/-! ## Splitting on the literal separator " | "

`splitSep` models JavaScript `String.prototype.split(" | ")`: it scans left to
right, cutting at each non-overlapping occurrence of the three-character
separator (space, pipe, space). It is written with length-disjoint patterns so
that recursion is structural and all equations are unconditional.
-/

/-- Model of JS `string.split(" | ")` at the character-list level. -/
def splitSep : List Char → List (List Char)
  | [] => [[]]
  | [c] => [[c]]
  | [c, d] => [[c, d]]
  | c :: d :: e :: rest =>
    if c = ' ' ∧ d = '|' ∧ e = ' ' then
      [] :: splitSep rest
    else
      match splitSep (d :: e :: rest) with
      | [] => [[c]]
      | h :: t => (c :: h) :: t

/-- Joining with the literal separator " | ", i.e. JS `array.join(" | ")`. -/
def joinSep : List (List Char) → List Char
  | [] => []
  | [e] => e
  | e :: f :: t => e ++ ' ' :: '|' :: ' ' :: joinSep (f :: t)

/-- Whether the character list contains an occurrence of the separator " | ". -/
def hasSep : List Char → Bool
  | [] => false
  | [_] => false
  | [_, _] => false
  | c :: d :: e :: rest => (if c = ' ' ∧ d = '|' ∧ e = ' ' then true else hasSep (d :: e :: rest))

/-- Whether the character list ends with the two characters space-pipe. -/
def endsSpBar (l : List Char) : Bool :=
  match l.reverse with
  | b :: a :: _ => b = '|' && a = ' '
  | _ => false

/-- `parseGlobMultiPattern` body: split on " | " and drop empty segments
(JS: `if(!!pattern) patterns.push(pattern)`). -/
def parseChars (l : List Char) : List (List Char) :=
  (splitSep l).filter (fun e => !e.isEmpty)

/-- Source `parseGlobMultiPattern(string)`: split the key on " | " and keep the
non-empty glob patterns, in order. -/
def parseGlobMultiPattern (s : String) : List String :=
  (parseChars s.data).map String.mk

/-- Source `stringifyGlobMultiPattern(globs)`: re-join patterns with " | ". -/
def stringifyGlobMultiPattern (globs : List String) : String :=
  String.mk (joinSep (globs.map String.data))

/-- The canonical (normalized) form of a multi-glob key: parse, then re-join.
Registration stores rules under this key and `getRule` looks keys up by it. -/
def canonKey (globs : String) : String :=
  stringifyGlobMultiPattern (parseGlobMultiPattern globs)

/-! ## JavaScript values and plain objects -/

/-- Flat model of the JavaScript values the rule engine inspects.
`fn` is a callable (identity-tagged), `str` a string, `boo` a boolean,
`list` an array of strings (used for the internal `$p`/`$ps` fields),
`other` any other value (number, null, nested object, ...): such values are
neither `_.isFunction`, `_.isString`, `_.isBoolean` nor `_.isPlainObject`. -/
inductive JSVal where
  | fn (id : Nat)
  | str (s : String)
  | boo (b : Bool)
  | list (l : List String)
  | other (id : Nat)
deriving DecidableEq

/-- A plain JavaScript object: association list of (key, value) bindings. -/
abbrev Obj := List (String × JSVal)

/-- First-some choice on options (JS: a value overriding a previous one). -/
def optOr (a b : Option JSVal) : Option JSVal :=
  match a with
  | some v => some v
  | none => b

/-- Property read: the value of the last binding of the key, if any
(later bindings shadow earlier ones, like later assignments in JS). -/
def objGet : Obj → String → Option JSVal
  | [], _ => none
  | (k, v) :: o, f =>
    match objGet o f with
    | some w => some w
    | none => if k = f then some v else none

/-- Property write `o[f] = v`: one slot per key. -/
def objSet (o : Obj) (f : String) (v : JSVal) : Obj :=
  o.filter (fun kv => kv.1 != f) ++ [(f, v)]

/-- Property removal `delete o[f]`. -/
def objDelete (o : Obj) (f : String) : Obj :=
  o.filter (fun kv => kv.1 != f)

/-- lodash `_.extend(a, b)`: copy every own property of `b` into `a`. -/
def objExtend (a b : Obj) : Obj :=
  b.foldl (fun acc kv => objSet acc kv.1 kv.2) a

/-! ## Rules, registration and counters -/

/-- The argument accepted by `_useRule` (and by entries of `config.rules`):
either a bare value or a plain record of fields. -/
inductive RuleArg where
  | val (v : JSVal)
  | record (fields : Obj)
deriving DecidableEq

/-- The validation/wrapping step of `_useRule`: a bare callable/string/boolean
is wrapped into `{action: value}`; a plain record is accepted as-is when its
`action` field is absent or a callable/string/boolean; everything else is a
TypeError (`none`). -/
def wrapRule : RuleArg → Option Obj
  | RuleArg.val (JSVal.fn i) => some [("action", JSVal.fn i)]
  | RuleArg.val (JSVal.str s) => some [("action", JSVal.str s)]
  | RuleArg.val (JSVal.boo b) => some [("action", JSVal.boo b)]
  | RuleArg.val _ => none
  | RuleArg.record fields =>
    match objGet fields "action" with
    | none => some fields
    | some (JSVal.fn _) => some fields
    | some (JSVal.str _) => some fields
    | some (JSVal.boo _) => some fields
    | some _ => none

/-- The four counter-relevant action kinds of a rule. -/
inductive AKind where
  | dyn
  | reroute
  | lock
  | nocount
deriving DecidableEq

/-- The counter a stored rule's `action` field contributes to, mirroring the
`isFunction / isString / === false` chain of `_useRule`. -/
def actionKind (r : Obj) : AKind :=
  match objGet r "action" with
  | some (JSVal.fn _) => AKind.dyn
  | some (JSVal.str _) => AKind.reroute
  | some (JSVal.boo false) => AKind.lock
  | _ => AKind.nocount

/-- The counter kind a registration argument contributes once accepted. -/
def argKind (a : RuleArg) : AKind :=
  match wrapRule a with
  | some r => actionKind r
  | none => AKind.nocount

/-- State of one ResourceProvider instance: appId, the rule mapping (in key
insertion order) and the three per-kind counters. -/
structure Provider where
  appId : String
  rules : List (String × Obj)
  dynamicHandlerCount : Nat
  staticRerouteCount : Nat
  staticLockCount : Nat
deriving DecidableEq

/-- A provider as constructed with no rules (`new ResourceProvider(appId)`). -/
def freshProvider (appId : String) : Provider :=
  ⟨appId, [], 0, 0, 0⟩

/-- JS object store `rules[key] = rule`: an existing binding keeps its position
and is overwritten, a new key is appended. -/
def storeSet (l : List (String × Obj)) (k : String) (v : Obj) : List (String × Obj) :=
  if l.any (fun kv => kv.1 == k) then
    l.map (fun kv => if kv.1 == k then (k, v) else kv)
  else
    l ++ [(k, v)]

/-- Source `_useRule(globs, rule)`: validate/wrap the rule, set its `$p`
patterns, recompute the canonical key, bump the matching counter, store the
rule at the canonical key, and return that key. -/
def _useRule (p : Provider) (globs : String) (arg : RuleArg) :
    Except String (Provider × String) :=
  match wrapRule arg with
  | none => Except.error "rule is no supported Rule type/config"
  | some r0 =>
    let pats := parseGlobMultiPattern globs
    let r := objSet r0 "$p" (JSVal.list pats)
    let key := stringifyGlobMultiPattern pats
    let p1 :=
      match actionKind r with
      | AKind.dyn => { p with dynamicHandlerCount := p.dynamicHandlerCount + 1 }
      | AKind.reroute => { p with staticRerouteCount := p.staticRerouteCount + 1 }
      | AKind.lock => { p with staticLockCount := p.staticLockCount + 1 }
      | AKind.nocount => p
    Except.ok ({ p1 with rules := storeSet p1.rules key r }, key)

/-- A sequence of successive `_useRule` registrations (the body of
`_useRules`, and the general form of runtime registration). -/
def runRules (p : Provider) : List (String × RuleArg) → Except String Provider
  | [] => Except.ok p
  | e :: es =>
    match _useRule p e.1 e.2 with
    | Except.error m => Except.error m
    | Except.ok (q, _) => runRules q es

/-- Number of entries whose (accepted) action is of the given kind. -/
def kindCount (es : List (String × RuleArg)) (k : AKind) : Nat :=
  es.countP (fun e => argKind e.2 == k)

/-! ## ECMAScript own-property enumeration order

Plain objects enumerate keys that are canonical array indices first, in
ascending numeric order, then the remaining keys in insertion order. lodash
`_.forOwn` (used both to register `config.rules` and to scan `_rules` in
`getRulesFor`) follows this order.
-/

/-- Decimal digit test. -/
def isDigitCh (c : Char) : Bool := '0' ≤ c && c ≤ '9'

/-- Numeric value of a digit string (junk on non-digits, used only under
`isArrayIndexKey`). -/
def digitsVal (l : List Char) : Nat :=
  l.foldl (fun a c => a * 10 + (c.toNat - 48)) 0

/-- Whether a string is a canonical array index ("0", or digits without a
leading zero, with numeric value below 2^32 - 1). -/
def isArrayIndexKey (s : String) : Bool :=
  match s.data with
  | [] => false
  | ['0'] => true
  | c :: cs => c != '0' && (c :: cs).all isDigitCh && digitsVal (c :: cs) < 4294967295

/-- Insert into a numerically sorted run of array-index keys. -/
def insertNum {α : Type} (x : String × α) : List (String × α) → List (String × α)
  | [] => [x]
  | y :: ys =>
    if digitsVal x.1.data ≤ digitsVal y.1.data then x :: y :: ys
    else y :: insertNum x ys

/-- Insertion sort of array-index keys by ascending numeric value. -/
def sortNum {α : Type} : List (String × α) → List (String × α)
  | [] => []
  | x :: xs => insertNum x (sortNum xs)

/-- ECMAScript own-property enumeration order of an association list. -/
def jsOrder {α : Type} (l : List (String × α)) : List (String × α) :=
  sortNum (l.filter (fun kv => isArrayIndexKey kv.1)) ++
  l.filter (fun kv => !isArrayIndexKey kv.1)

/-! ## External collaborators: glob matching and path normalization

Modelled from the spec: the repository delegates glob matching to the external
multimatch/minimatch capability and path normalization to the platform path
module; neither is part of this repository's sources. The model below follows
the spec's description (multi-pattern matching where a path matches if it
matches at least one pattern, with a later negated pattern able to un-match
it) and minimatch's documented segment semantics, restricted to the literal
(wildcard-free) patterns the claims exercise: a pattern matches a path when
their slash-separated segments are equal, or when the pattern's segments equal
the path's segments minus a single trailing empty segment (a trailing slash).
-/

/-- Split a character list on a single separator character. -/
def splitChar (sep : Char) : List Char → List (List Char)
  | [] => [[]]
  | c :: cs =>
    if c = sep then [] :: splitChar sep cs
    else
      match splitChar sep cs with
      | [] => [[c]]
      | h :: t => (c :: h) :: t

/-- Slash-separated segments of a pattern or path. -/
def segsOf (s : String) : List String :=
  (splitChar '/' s.data).map String.mk

/-- Modelled from the spec: minimatch's per-segment matching for literal
patterns. A run-out pattern still matches when exactly one empty path segment
(a trailing slash) remains. -/
def matchSegs : List String → List String → Bool
  | [], [] => true
  | [], f :: fs => f == "" && fs.isEmpty
  | _ :: _, [] => false
  | p :: ps, f :: fs => p == f && matchSegs ps fs

/-- Modelled from the spec: minimatch on one literal pattern and one path. -/
def minimatchLit (pat file : String) : Bool :=
  matchSegs (segsOf pat) (segsOf file)

/-- Modelled from the spec: multimatch of one path against a pattern sequence.
Patterns are processed in order; a positive match adds the path to the result
set, a matching pattern prefixed with "!" removes it; the path matches when
the final result set is non-empty. -/
def multimatchB (path : String) (pats : List String) : Bool :=
  pats.foldl
    (fun acc pat =>
      match pat.data with
      | '!' :: rest => if minimatchLit (String.mk rest) path then false else acc
      | _ => if minimatchLit pat path then true else acc)
    false

/-- The `$p` pattern list of a stored rule, as multimatch receives it
(multimatch wraps a bare string into a one-element array and treats a missing
value as an empty array). -/
def rulePats (r : Obj) : List String :=
  match objGet r "$p" with
  | some (JSVal.list l) => l
  | some (JSVal.str s) => [s]
  | _ => []

/-- One step of posix path normalization: drop empty and "." segments,
resolve ".." against the (reversed) accumulator. -/
def normSegStep (abs : Bool) (acc : List (List Char)) (seg : List Char) : List (List Char) :=
  if seg = [] ∨ seg = ['.'] then acc
  else if seg = ['.', '.'] then
    match acc with
    | [] => if abs then [] else [seg]
    | a :: rest => if a = ['.', '.'] then seg :: a :: rest else rest
  else seg :: acc

/-- Join segments with a single separator character. -/
def joinChar (sep : Char) : List (List Char) → List Char
  | [] => []
  | [e] => e
  | e :: f :: t => e ++ sep :: joinChar sep (f :: t)

/-- Modelled from the spec: the platform path-normalization capability
(Node's posix `path.normalize`): resolve "." and ".." segments, collapse
redundant separators, keep a trailing separator, and return "." for an
empty result. -/
def pathNormalize (p : String) : String :=
  match p.data with
  | [] => "."
  | c :: cs =>
    let abs := c = '/'
    let trail := (c :: cs).getLast? = some '/'
    let segs := (((splitChar '/' (c :: cs)).foldl (normSegStep abs) []).reverse)
    let body := joinChar '/' segs
    if body.isEmpty then
      if abs then "/" else if trail then "./" else "."
    else
      String.mk ((if abs then ['/'] else []) ++ body ++ (if trail then ['/'] else []))

/-- Source `_normalizeResourcePath`: delegates to `path.normalize`. -/
def _normalizeResourcePath (resourcePath : String) : String :=
  pathNormalize resourcePath

/-! ## Lookup and path resolution -/

/-- Whether a stored rule applies to a normalized path (`multimatch(resourcePath,
rule.$p).length > 0` in `getRulesFor`). -/
def ruleMatches (np : String) (kv : String × Obj) : Bool :=
  multimatchB np (rulePats kv.2)

/-- The loop body of `getRulesFor`: a matching rule appends its key to the
applied list and is shallow-merged into the combined record. -/
def applyScan (np : String) (acc : List String × Obj) (kv : String × Obj) :
    List String × Obj :=
  if ruleMatches np kv then (acc.1 ++ [kv.1], objExtend acc.2 kv.2) else acc

/-- Source `getRulesFor(resourcePath)`: normalize the path, scan all stored
rules in own-property enumeration order, record the keys of matching rules and
shallow-merge their fields; then remove the internal `$p` field, set `$ps` to
the applied keys and `$target` to the normalized path. -/
def getRulesFor (p : Provider) (resourcePath : String) : Obj :=
  let np := _normalizeResourcePath resourcePath
  let scan := (jsOrder p.rules).foldl (applyScan np) ([], [])
  objSet (objSet (objDelete scan.2 "$p") "$ps" (JSVal.list scan.1)) "$target" (JSVal.str np)

/-- Result of the JavaScript property read `this._rules[globs]`: a rule
stored as an own entry, a member inherited from `Object.prototype`
(modelled opaquely by its name — the actual value is a host function, or the
prototype object itself for `__proto__`), or undefined. -/
inductive PropRead where
  | own (r : Obj)
  | proto (name : String)
  | undef
deriving DecidableEq

/-- The own property names of `Object.prototype`, inherited by every plain
object such as the `_rules` store: reading one of these names on an object
with no own entry of that name yields the inherited member, not undefined. -/
def objectPrototypeMembers : List String :=
  ["constructor", "hasOwnProperty", "isPrototypeOf", "propertyIsEnumerable",
   "toLocaleString", "toString", "valueOf", "__defineGetter__",
   "__defineSetter__", "__lookupGetter__", "__lookupSetter__", "__proto__"]

/-- Source `getRule(globs)`: normalize the key and return
`this._rules[globs]` — a JavaScript property read: the rule stored at exactly
that canonical key when one exists, otherwise the member the store inherits
from `Object.prototype` when the canonical key names one, otherwise
undefined. -/
def getRule (p : Provider) (globs : String) : PropRead :=
  match p.rules.find? (fun kv => kv.1 == canonKey globs) with
  | some kv => PropRead.own kv.2
  | none =>
    if objectPrototypeMembers.contains (canonKey globs) then
      PropRead.proto (canonKey globs)
    else
      PropRead.undef

/-- Source `handleResourcePath(resourcePath)`: reject non-string arguments with
a TypeError, return null (`none`) for every string, independent of the rules.
The argument is a `JSVal` so that the non-string case is representable. -/
def handleResourcePath (_p : Provider) (resourcePath : JSVal) :
    Except String (Option JSVal) :=
  match resourcePath with
  | JSVal.str _ => Except.ok none
  | _ => Except.error "resourcePath is no string"

/-! ## Construction -/

/-- The part of the constructor's `config` argument the core consumes:
an optional `rules` ruleset (a plain object; a config without a `rules` field
defaults to an empty ruleset via `_.extend({map:{}, rules:{}}, config)`). -/
structure JSConfig where
  rules : Option (List (String × RuleArg))
deriving DecidableEq

/-- Source constructor `ResourceProvider(appId, config)`: reject a non-string
appId with a TypeError, then register every entry of `config.rules` (in
own-property enumeration order) via `_useRule`. -/
def mkProvider (appId : JSVal) (config : Option JSConfig) : Except String Provider :=
  match appId with
  | JSVal.str s =>
    let ruleset := (config.bind JSConfig.rules).getD []
    runRules (freshProvider s) (jsOrder ruleset)
  | _ => Except.error "appId is no string"

/-! ## Properties of the " | " split/join pair

These culminate in the idempotence of key canonicalization: parsing a
canonical key recovers the pattern list it was joined from.
-/

theorem splitSep_ne_nil (l : List Char) : splitSep l ≠ [] := by
  induction l using splitSep.induct
  all_goals simp_all [splitSep]
  all_goals split
  all_goals simp_all

theorem joinSep_cons (e : List Char) (t : List (List Char)) (ht : t ≠ []) :
    joinSep (e :: t) = e ++ ' ' :: '|' :: ' ' :: joinSep t := by
  cases t with
  | nil => exact absurd rfl ht
  | cons f t => rfl

/-- Re-joining the segments of a split recovers the original string. -/
theorem joinSep_splitSep (l : List Char) : joinSep (splitSep l) = l := by
  induction l using splitSep.induct with
  | case1 => rfl
  | case2 c => rfl
  | case3 c d => rfl
  | case4 c d e rest hc ih =>
    obtain ⟨rfl, rfl, rfl⟩ := hc
    rw [splitSep]
    rw [if_pos ⟨rfl, rfl, rfl⟩]
    rw [joinSep_cons _ _ (splitSep_ne_nil rest)]
    simp [ih]
  | case5 c d e rest hc hnil ih =>
    exact absurd hnil (splitSep_ne_nil _)
  | case6 c d e rest hc h t heq ih =>
    have hc2 : ¬(c = ' ' ∧ d = '|' ∧ e = ' ') := by tauto
    rw [splitSep, if_neg hc2, heq]
    rw [heq] at ih
    cases t with
    | nil =>
      simp only [joinSep] at ih ⊢
      simp [ih]
    | cons y ys =>
      rw [joinSep_cons _ _ (by simp)] at ih ⊢
      simp [← ih]

/-- The first segment of a split is a prefix of the input. -/
theorem splitSep_head_prefix (l : List Char) :
    ∀ h t, splitSep l = h :: t → ∃ w, l = h ++ w := by
  induction l using splitSep.induct with
  | case1 =>
    intro h t heq
    simp [splitSep] at heq
    exact ⟨[], by simp [heq.1]⟩
  | case2 c =>
    intro h t heq
    simp [splitSep] at heq
    exact ⟨[], by simp [heq.1]⟩
  | case3 c d =>
    intro h t heq
    simp [splitSep] at heq
    exact ⟨[], by simp [heq.1]⟩
  | case4 c d e rest hc ih =>
    intro h t heq
    rw [splitSep, if_pos hc] at heq
    injection heq with h1 h2
    exact ⟨c :: d :: e :: rest, by rw [← h1]; rfl⟩
  | case5 c d e rest hc hnil ih =>
    exact absurd hnil (splitSep_ne_nil _)
  | case6 c d e rest hc h t heq ih =>
    intro h2 t2 heq2
    have hc2 : ¬(c = ' ' ∧ d = '|' ∧ e = ' ') := by tauto
    rw [splitSep, if_neg hc2, heq] at heq2
    injection heq2 with h1 _
    obtain ⟨w, hw⟩ := ih h t heq
    exact ⟨w, by rw [← h1]; simp [hw]⟩

/-- No segment produced by the split contains the separator. -/
theorem hasSep_of_mem_splitSep (l : List Char) :
    ∀ x ∈ splitSep l, hasSep x = false := by
  induction l using splitSep.induct with
  | case1 => simp [splitSep, hasSep]
  | case2 c => simp [splitSep, hasSep]
  | case3 c d => simp [splitSep, hasSep]
  | case4 c d e rest hc ih =>
    intro x hx
    rw [splitSep, if_pos hc] at hx
    rcases List.mem_cons.mp hx with rfl | hx
    · rfl
    · exact ih x hx
  | case5 c d e rest hc hnil ih =>
    exact absurd hnil (splitSep_ne_nil _)
  | case6 c d e rest hc h t heq ih =>
    have hc2 : ¬(c = ' ' ∧ d = '|' ∧ e = ' ') := by tauto
    intro x hx
    rw [splitSep, if_neg hc2, heq] at hx
    rcases List.mem_cons.mp hx with rfl | hx
    · have hh : hasSep h = false := ih h (heq ▸ List.mem_cons_self _ _)
      obtain ⟨w, hw⟩ := splitSep_head_prefix _ h t heq
      match h, hh, hw with
      | [], _, _ => rfl
      | [y], _, _ => rfl
      | y :: z :: h2, hh, hw =>
        injection hw with h1 hw2
        injection hw2 with h2e hw3
        subst h1
        subst h2e
        rw [hasSep, if_neg hc2]
        exact hh
    · exact ih x (heq ▸ List.mem_cons_of_mem _ hx)

/-- A separator-free string splits into itself. -/
theorem splitSep_eq_single (l : List Char) (hl : hasSep l = false) :
    splitSep l = [l] := by
  induction l using splitSep.induct with
  | case1 => rfl
  | case2 c => rfl
  | case3 c d => rfl
  | case4 c d e rest hc ih =>
    rw [hasSep, if_pos hc] at hl
    exact absurd hl (by simp)
  | case5 c d e rest hc hnil ih =>
    exact absurd hnil (splitSep_ne_nil _)
  | case6 c d e rest hc h t heq ih =>
    have hc2 : ¬(c = ' ' ∧ d = '|' ∧ e = ' ') := by tauto
    rw [hasSep, if_neg hc2] at hl
    rw [splitSep, if_neg hc2, heq]
    rw [ih hl] at heq
    injection heq with h1 h2
    rw [← h1, ← h2]

theorem endsSpBar_cons (c : Char) (l : List Char) (hl : 2 ≤ l.length) :
    endsSpBar (c :: l) = endsSpBar l := by
  match hr : l.reverse with
  | [] =>
    rw [List.reverse_eq_nil_iff] at hr
    subst hr
    simp at hl
  | [a] =>
    have : l.length = 1 := by
      rw [← List.length_reverse, hr]
      rfl
    omega
  | b :: a :: w =>
    unfold endsSpBar
    rw [List.reverse_cons, hr]
    rfl

/-- Splitting a separator-free chunk, the separator, and a remainder yields
the chunk followed by the split of the remainder — provided the chunk does not
end in space-pipe (which would complete an earlier separator occurrence). -/
theorem splitSep_append_sep :
    ∀ e t : List Char, hasSep e = false → endsSpBar e = false →
      splitSep (e ++ ' ' :: '|' :: ' ' :: t) = e :: splitSep t := by
  intro e
  induction e with
  | nil =>
    intro t _ _
    rw [List.nil_append, splitSep, if_pos ⟨rfl, rfl, rfl⟩]
  | cons c e ih =>
    intro t h1 h2
    cases e with
    | nil =>
      show splitSep (c :: ' ' :: '|' :: ' ' :: t) = [c] :: splitSep t
      rw [splitSep, if_neg (by simp)]
      rw [show splitSep (' ' :: '|' :: ' ' :: t) = [] :: splitSep t from by
        rw [splitSep, if_pos ⟨rfl, rfl, rfl⟩]]
    | cons x e2 =>
      cases e2 with
      | nil =>
        have hcx : ¬(c = ' ' ∧ x = '|' ∧ ' ' = ' ') := by
          rintro ⟨rfl, rfl, -⟩
          simp [endsSpBar] at h2
        show splitSep (c :: x :: ' ' :: '|' :: ' ' :: t) = [c, x] :: splitSep t
        rw [splitSep, if_neg hcx]
        rw [show splitSep (x :: ' ' :: '|' :: ' ' :: t) = [x] :: splitSep t from ih t rfl rfl]
      | cons y e3 =>
        have h1t : hasSep (x :: y :: e3) = false := by
          rw [hasSep] at h1
          split at h1
          · exact absurd h1 (by simp)
          · exact h1
        have hcx : ¬(c = ' ' ∧ x = '|' ∧ y = ' ') := by
          rw [hasSep] at h1
          intro hpos
          rw [if_pos hpos] at h1
          exact absurd h1 (by simp)
        have h2t : endsSpBar (x :: y :: e3) = false := by
          rw [endsSpBar_cons c _ (by simp)] at h2
          exact h2
        show splitSep (c :: x :: y :: (e3 ++ ' ' :: '|' :: ' ' :: t)) = _
        rw [splitSep, if_neg hcx]
        rw [show x :: y :: (e3 ++ ' ' :: '|' :: ' ' :: t)
              = (x :: y :: e3) ++ ' ' :: '|' :: ' ' :: t from rfl]
        rw [ih t h1t h2t]

/-- No non-final pattern produced by parsing ends in space-pipe. -/
theorem endsSpBar_parseChars (l : List Char) :
    ∀ x ∈ (parseChars l).dropLast, endsSpBar x = false := by
  induction l using splitSep.induct with
  | case1 => simp [parseChars, splitSep]
  | case2 c => simp [parseChars, splitSep, List.filter]
  | case3 c d => simp [parseChars, splitSep, List.filter]
  | case4 c d e rest hc ih =>
    have : parseChars (c :: d :: e :: rest) = parseChars rest := by
      unfold parseChars
      rw [splitSep, if_pos hc]
      rfl
    rw [this]
    exact ih
  | case5 c d e rest hc hnil ih =>
    exact absurd hnil (splitSep_ne_nil _)
  | case6 c d e rest hc h t heq ih =>
    have hc2 : ¬(c = ' ' ∧ d = '|' ∧ e = ' ') := by tauto
    have hp : parseChars (c :: d :: e :: rest)
        = (c :: h) :: t.filter (fun e => !e.isEmpty) := by
      unfold parseChars
      rw [splitSep, if_neg hc2, heq]
      rfl
    have hpt : parseChars (d :: e :: rest)
        = (h :: t).filter (fun e => !e.isEmpty) := by
      unfold parseChars
      rw [heq]
    rw [hp]
    intro x hx
    cases hf : t.filter (fun e => !e.isEmpty) with
    | nil =>
      rw [hf] at hx
      simp at hx
    | cons y ys =>
      rw [hf] at hx
      rw [List.dropLast_cons₂] at hx
      rcases List.mem_cons.mp hx with rfl | hx
      · -- x = c :: h : show it does not end in space-pipe
        have ht : t ≠ [] := by
          intro hteq
          rw [hteq] at hf
          simp [List.filter] at hf
        match h, heq with
        | [], heq => rfl
        | [z], heq =>
          -- the segment [z] is followed by the separator, pinning d and e
          have hj := joinSep_splitSep (d :: e :: rest)
          rw [heq, joinSep_cons _ _ ht] at hj
          injection hj with hd hj2
          injection hj2 with he hj3
          show endsSpBar [c, z] = false
          by_contra hby
          simp only [Bool.not_eq_false] at hby
          unfold endsSpBar at hby
          simp only [List.reverse_cons, List.reverse_nil] at hby
          have hz : z = '|' ∧ c = ' ' := by
            simpa using hby
          exact hc2 ⟨hz.2, hd ▸ hz.1, he.symm⟩
        | z :: z2 :: h3, heq =>
          rw [endsSpBar_cons c _ (by simp)]
          have hmem : (z :: z2 :: h3) ∈ (parseChars (d :: e :: rest)).dropLast := by
            unfold parseChars
            rw [heq, List.filter_cons]
            simp only [List.isEmpty_cons, Bool.not_false, if_true]
            rw [hf, List.dropLast_cons₂]
            exact List.mem_cons_self _ _
          exact ih _ hmem
      · -- x is a non-final element of the filtered tail
        cases hhe : h.isEmpty with
        | true =>
          have hh : h = [] := by
            cases h
            · rfl
            · simp at hhe
          apply ih
          rw [hpt, hh]
          simp only [List.filter, List.isEmpty_nil, Bool.not_true]
          rw [hf]
          exact hx
        | false =>
          apply ih
          rw [hpt, List.filter_cons]
          simp only [hhe, Bool.not_false, if_true]
          rw [hf, List.dropLast_cons₂]
          exact List.mem_cons_of_mem _ hx

theorem mem_parseChars_hasSep (l : List Char) :
    ∀ x ∈ parseChars l, hasSep x = false := by
  intro x hx
  exact hasSep_of_mem_splitSep l x (List.mem_of_mem_filter hx)

theorem mem_parseChars_ne_nil (l : List Char) :
    ∀ x ∈ parseChars l, x ≠ [] := by
  intro x hx
  have := List.of_mem_filter hx
  cases x
  · simp at this
  · simp

/-- Joining a non-empty list of separator-free chunks whose non-final chunks
do not end in space-pipe, then splitting, recovers the list. -/
theorem splitSep_joinSep (pats : List (List Char)) (hne : pats ≠ [])
    (h1 : ∀ x ∈ pats, hasSep x = false)
    (h2 : ∀ x ∈ pats.dropLast, endsSpBar x = false) :
    splitSep (joinSep pats) = pats := by
  induction pats with
  | nil => exact absurd rfl hne
  | cons e t ih =>
    cases t with
    | nil =>
      show splitSep (joinSep [e]) = [e]
      rw [joinSep]
      exact splitSep_eq_single e (h1 e (by simp))
    | cons f t2 =>
      rw [joinSep_cons e _ (by simp)]
      rw [splitSep_append_sep e _ (h1 e (by simp))
        (h2 e (by rw [List.dropLast_cons₂]; exact List.mem_cons_self _ _))]
      rw [ih (by simp) (fun x hx => h1 x (List.mem_cons_of_mem _ hx))
        (fun x hx => h2 x (by rw [List.dropLast_cons₂]; exact List.mem_cons_of_mem _ hx))]

/-- Parsing is stable under one canonicalization round: parsing the re-joined
pattern list of a parse yields the same pattern list. -/
theorem parseChars_joinSep_parseChars (l : List Char) :
    parseChars (joinSep (parseChars l)) = parseChars l := by
  cases hp : parseChars l with
  | nil =>
    show parseChars (joinSep []) = []
    rfl
  | cons e t =>
    unfold parseChars
    rw [splitSep_joinSep (e :: t) (by simp)
      (fun x hx => mem_parseChars_hasSep l x (hp ▸ hx))
      (fun x hx => endsSpBar_parseChars l x (hp ▸ hx))]
    rw [List.filter_eq_self.mpr]
    intro x hx
    have := mem_parseChars_ne_nil l x (hp ▸ hx)
    cases x
    · exact absurd rfl this
    · simp

theorem data_mk (l : List Char) : (String.mk l).data = l := rfl

theorem mk_data (s : String) : String.mk s.data = s := rfl

/-- Parsing a canonical key yields the same patterns as parsing the original
key. -/
theorem parseGlob_canonKey (s : String) :
    parseGlobMultiPattern (canonKey s) = parseGlobMultiPattern s := by
  unfold canonKey stringifyGlobMultiPattern parseGlobMultiPattern
  rw [data_mk, List.map_map]
  rw [show (String.data ∘ String.mk) = id from funext (fun l => rfl), List.map_id]
  rw [parseChars_joinSep_parseChars]

/-- Key canonicalization is idempotent. -/
theorem canonKey_idem (s : String) : canonKey (canonKey s) = canonKey s := by
  show stringifyGlobMultiPattern (parseGlobMultiPattern (canonKey s)) = canonKey s
  rw [parseGlob_canonKey]
  rfl

/-- Every pattern of a parsed key is a non-empty string. -/
theorem parseGlob_ne_empty (s : String) :
    ∀ x ∈ parseGlobMultiPattern s, x ≠ "" := by
  intro x hx
  unfold parseGlobMultiPattern at hx
  obtain ⟨l, hl, rfl⟩ := List.mem_map.mp hx
  intro hcon
  have : l = [] := by
    have := congrArg String.data hcon
    rw [data_mk] at this
    exact this
  exact mem_parseChars_ne_nil _ l hl this

/-! ## Properties of object reads, writes and shallow merge -/

theorem optOr_none_right (a : Option JSVal) : optOr a none = a := by
  cases a <;> rfl

theorem optOr_none_left (b : Option JSVal) : optOr none b = b := rfl

theorem optOr_assoc (a b c : Option JSVal) :
    optOr (optOr a b) c = optOr a (optOr b c) := by
  cases a <;> rfl

theorem objGet_append (a b : Obj) (f : String) :
    objGet (a ++ b) f = optOr (objGet b f) (objGet a f) := by
  induction a with
  | nil => rw [List.nil_append, objGet, optOr_none_right]
  | cons kv a ih =>
    obtain ⟨k, v⟩ := kv
    rw [List.cons_append, objGet, ih, objGet]
    cases objGet b f <;> cases objGet a f <;> simp [optOr]

theorem objGet_not_mem (o : Obj) (f : String) (h : ∀ kv ∈ o, kv.1 ≠ f) :
    objGet o f = none := by
  induction o with
  | nil => rfl
  | cons kv o ih =>
    obtain ⟨k, v⟩ := kv
    rw [objGet, ih (fun kv hkv => h kv (List.mem_cons_of_mem _ hkv))]
    rw [if_neg (h (k, v) (List.mem_cons_self _ _))]

theorem objGet_cons (k : String) (v : JSVal) (o : Obj) (f : String) :
    objGet ((k, v) :: o) f
      = optOr (objGet o f) (if k = f then some v else none) := by
  rw [objGet]
  cases objGet o f
  · rfl
  · rfl

theorem objGet_filter_ne (o : Obj) (f g : String) (hfg : g ≠ f) :
    objGet (o.filter (fun kv => kv.1 != f)) g = objGet o g := by
  induction o with
  | nil => rfl
  | cons kv o ih =>
    obtain ⟨k, v⟩ := kv
    rw [List.filter_cons]
    by_cases hk : k = f
    · subst hk
      rw [if_neg (by simp), ih, objGet_cons,
        if_neg (fun hcon => hfg hcon.symm), optOr_none_right]
    · rw [if_pos (by simpa using hk), objGet_cons, objGet_cons, ih]

theorem objGet_set_self (o : Obj) (f : String) (v : JSVal) :
    objGet (objSet o f v) f = some v := by
  unfold objSet
  rw [objGet_append]
  rw [show objGet [(f, v)] f = some v from by simp [objGet]]
  rfl

theorem objGet_set_ne (o : Obj) (f g : String) (v : JSVal) (hfg : g ≠ f) :
    objGet (objSet o f v) g = objGet o g := by
  unfold objSet
  rw [objGet_append]
  rw [show objGet [(f, v)] g = none from by
    rw [objGet_cons, if_neg (fun h => hfg h.symm)]
    rfl]
  rw [show optOr none (objGet (o.filter (fun kv => kv.1 != f)) g)
        = objGet (o.filter (fun kv => kv.1 != f)) g from rfl]
  exact objGet_filter_ne o f g hfg

theorem objGet_delete_self (o : Obj) (f : String) :
    objGet (objDelete o f) f = none := by
  unfold objDelete
  apply objGet_not_mem
  intro kv hkv
  have := List.of_mem_filter hkv
  simpa using this

theorem objGet_delete_ne (o : Obj) (f g : String) (hfg : g ≠ f) :
    objGet (objDelete o f) g = objGet o g :=
  objGet_filter_ne o f g hfg

/-- Shallow merge reads: a field of `_.extend(a, b)` is `b`'s value when `b`
has the field, else `a`'s. -/
theorem objGet_extend (a b : Obj) (f : String) :
    objGet (objExtend a b) f = optOr (objGet b f) (objGet a f) := by
  induction b generalizing a with
  | nil => rfl
  | cons kv b ih =>
    obtain ⟨k, v⟩ := kv
    show objGet (objExtend (objSet a k v) b) f = _
    rw [ih, objGet_cons, optOr_assoc]
    by_cases hk : k = f
    · subst hk
      rw [if_pos rfl, objGet_set_self]
      rfl
    · rw [if_neg hk, objGet_set_ne a k f v (fun h => hk h.symm)]
      rfl

/-! ## Properties of registration -/

theorem actionKind_set_p (r : Obj) (v : JSVal) :
    actionKind (objSet r "$p" v) = actionKind r := by
  unfold actionKind
  rw [objGet_set_ne _ _ _ _ (by decide)]

/-- Characterization of a successful `_useRule`: the returned key is the
canonical key, and the rules mapping is updated at that key with the wrapped
rule carrying its `$p` patterns; nothing else of the store changes. -/
theorem useRule_ok_shape (p : Provider) (g : String) (a : RuleArg) (q : Provider) (k : String)
    (h : _useRule p g a = Except.ok (q, k)) :
    ∃ r0, wrapRule a = some r0 ∧
      k = canonKey g ∧
      q.rules = storeSet p.rules (canonKey g)
        (objSet r0 "$p" (JSVal.list (parseGlobMultiPattern g))) ∧
      q.appId = p.appId := by
  unfold _useRule at h
  cases hw : wrapRule a with
  | none =>
    rw [hw] at h
    exact absurd h (by simp)
  | some r0 =>
    rw [hw] at h
    simp only at h
    refine ⟨r0, rfl, ?_⟩
    cases hK : actionKind (objSet r0 "$p" (JSVal.list (parseGlobMultiPattern g))) <;>
      rw [hK] at h <;>
      injection h with h1 <;>
      injection h1 with hq hk <;>
      exact ⟨hk.symm, by subst hq; rfl, by subst hq; rfl⟩

/-- A successful `_useRule` bumps exactly the counter of the argument's action
kind. -/
theorem useRule_counts (p : Provider) (g : String) (a : RuleArg) (q : Provider) (k : String)
    (h : _useRule p g a = Except.ok (q, k)) :
    q.dynamicHandlerCount
        = p.dynamicHandlerCount + (if argKind a = AKind.dyn then 1 else 0) ∧
    q.staticRerouteCount
        = p.staticRerouteCount + (if argKind a = AKind.reroute then 1 else 0) ∧
    q.staticLockCount
        = p.staticLockCount + (if argKind a = AKind.lock then 1 else 0) := by
  unfold _useRule at h
  cases hw : wrapRule a with
  | none =>
    rw [hw] at h
    exact absurd h (by simp)
  | some r0 =>
    rw [hw] at h
    simp only at h
    have hak : argKind a = actionKind (objSet r0 "$p" (JSVal.list (parseGlobMultiPattern g))) := by
      unfold argKind
      rw [hw, actionKind_set_p]
    rw [hak]
    cases hK : actionKind (objSet r0 "$p" (JSVal.list (parseGlobMultiPattern g))) <;>
      rw [hK] at h <;>
      injection h with h1 <;>
      injection h1 with hq hk <;>
      rw [← hq] <;>
      simp

theorem storeSet_find_self (l : List (String × Obj)) (k : String) (v : Obj) :
    (storeSet l k v).find? (fun kv => kv.1 == k) = some (k, v) := by
  unfold storeSet
  by_cases hany : l.any (fun kv => kv.1 == k)
  · rw [if_pos hany]
    induction l with
    | nil => simp at hany
    | cons kv l ih =>
      obtain ⟨k0, v0⟩ := kv
      by_cases hk0 : k0 = k
      · subst hk0
        rw [List.map_cons, List.find?_cons]
        simp
      · rw [List.map_cons, List.find?_cons]
        rw [show ((if (((k0, v0) : String × Obj).1 == k) = true then ((k, v) : String × Obj)
              else (k0, v0)) : String × Obj) = (k0, v0) from by simp [hk0]]
        rw [show (((k0, v0) : String × Obj).1 == k) = false from by simpa using hk0]
        exact ih (by simpa [hk0] using hany)
  · rw [if_neg hany]
    induction l with
    | nil => simp
    | cons kv l ih =>
      obtain ⟨k0, v0⟩ := kv
      rw [List.cons_append, List.find?_cons]
      have hk0 : ¬(k0 = k) := by
        intro hcon
        exact hany (by simp [hcon])
      rw [show (((k0, v0) : String × Obj).1 == k) = false from by simpa using hk0]
      exact ih (by
        intro hcon
        exact hany (by
          rcases List.any_eq_true.mp hcon with ⟨x, hx, hxk⟩
          exact List.any_eq_true.mpr ⟨x, List.mem_cons_of_mem _ hx, hxk⟩))

theorem storeSet_length_of_mem (l : List (String × Obj)) (k : String) (v : Obj)
    (hany : l.any (fun kv => kv.1 == k)) :
    (storeSet l k v).length = l.length := by
  unfold storeSet
  rw [if_pos hany, List.length_map]

theorem mem_storeSet (l : List (String × Obj)) (k : String) (v : Obj) :
    ∀ kv ∈ storeSet l k v, kv ∈ l ∨ kv = (k, v) := by
  intro kv hkv
  unfold storeSet at hkv
  by_cases hany : l.any (fun kv => kv.1 == k)
  · rw [if_pos hany] at hkv
    obtain ⟨x, hx, hxe⟩ := List.mem_map.mp hkv
    by_cases hxk : x.1 == k
    · right
      rw [← hxe, if_pos hxk]
    · left
      rw [← hxe, if_neg hxk]
      exact hx
  · rw [if_neg hany] at hkv
    rcases List.mem_append.mp hkv with hl | hr
    · exact Or.inl hl
    · exact Or.inr (by simpa using hr)

/-- The three counters after a registration sequence: the starting counters
plus the number of registered entries of each kind. -/
theorem runRules_counts (es : List (String × RuleArg)) :
    ∀ p q : Provider, runRules p es = Except.ok q →
      q.dynamicHandlerCount = p.dynamicHandlerCount + kindCount es AKind.dyn ∧
      q.staticRerouteCount = p.staticRerouteCount + kindCount es AKind.reroute ∧
      q.staticLockCount = p.staticLockCount + kindCount es AKind.lock := by
  induction es with
  | nil =>
    intro p q h
    injection h with h1
    subst h1
    simp [kindCount]
  | cons e es ih =>
    intro p q h
    rw [runRules] at h
    cases hu : _useRule p e.1 e.2 with
    | error m =>
      rw [hu] at h
      exact absurd h (by simp)
    | ok r =>
      rw [hu] at h
      obtain ⟨q1, k1⟩ := r
      obtain ⟨hd, hr, hl⟩ := ih q1 q h
      obtain ⟨hd1, hr1, hl1⟩ := useRule_counts p e.1 e.2 q1 k1 hu
      have hcnt : ∀ kk : AKind, kindCount (e :: es) kk
          = (if argKind e.2 = kk then 1 else 0) + kindCount es kk := by
        intro kk
        unfold kindCount
        rw [List.countP_cons]
        by_cases hek : argKind e.2 = kk
        · simp [hek, Nat.add_comm]
        · simp [hek, beq_iff_eq]
      rw [hcnt, hcnt, hcnt, hd, hr, hl, hd1, hr1, hl1]
      omega

theorem useRule_error_iff (p : Provider) (g : String) (a : RuleArg) :
    (∃ m, _useRule p g a = Except.error m) ↔ wrapRule a = none := by
  unfold _useRule
  cases wrapRule a with
  | none => simp
  | some r0 =>
    simp only
    constructor
    · rintro ⟨m, hm⟩
      cases actionKind (objSet r0 "$p" (JSVal.list (parseGlobMultiPattern g))) <;>
        exact absurd hm (by simp)
    · intro hcon
      exact absurd hcon (by simp)

/-- A registration sequence succeeds exactly when every entry is a supported
rule shape. -/
theorem runRules_ok_iff (es : List (String × RuleArg)) :
    ∀ p : Provider, (∃ q, runRules p es = Except.ok q)
      ↔ ∀ e ∈ es, wrapRule e.2 ≠ none := by
  induction es with
  | nil =>
    intro p
    simp [runRules]
  | cons e es ih =>
    intro p
    rw [runRules]
    cases hu : _useRule p e.1 e.2 with
    | error m =>
      have hwe : wrapRule e.2 = none := (useRule_error_iff p e.1 e.2).mp ⟨m, hu⟩
      constructor
      · rintro ⟨q, hq⟩
        exact absurd hq (by simp)
      · intro hall
        exact absurd hwe (hall e (List.mem_cons_self _ _))
    | ok r =>
      obtain ⟨q1, k1⟩ := r
      have hwe : wrapRule e.2 ≠ none := by
        intro hcon
        unfold _useRule at hu
        rw [hcon] at hu
        exact absurd hu (by simp)
      constructor
      · rintro ⟨q, hq⟩
        intro x hx
        rcases List.mem_cons.mp hx with rfl | hx
        · exact hwe
        · exact ((ih q1).mp ⟨q, hq⟩) x hx
      · intro hall
        obtain ⟨q, hq⟩ := (ih q1).mpr (fun x hx => hall x (List.mem_cons_of_mem _ hx))
        exact ⟨q, hq⟩

/-- Every rule stored after a registration sequence was present initially or
registered under the canonical form of one of the sequence's keys. -/
theorem runRules_keys (es : List (String × RuleArg)) :
    ∀ p q : Provider, runRules p es = Except.ok q →
      ∀ kv ∈ q.rules, kv ∈ p.rules ∨ ∃ e ∈ es, kv.1 = canonKey e.1 := by
  induction es with
  | nil =>
    intro p q h kv hkv
    injection h with h1
    subst h1
    exact Or.inl hkv
  | cons e es ih =>
    intro p q h kv hkv
    rw [runRules] at h
    cases hu : _useRule p e.1 e.2 with
    | error m =>
      rw [hu] at h
      exact absurd h (by simp)
    | ok r =>
      rw [hu] at h
      obtain ⟨q1, k1⟩ := r
      rcases ih q1 q h kv hkv with hin | ⟨x, hx, hxk⟩
      · obtain ⟨r0, hw, hk, hrules, happ⟩ := useRule_ok_shape p e.1 e.2 q1 k1 hu
        rcases mem_storeSet _ _ _ kv (hrules ▸ hin) with hold | hnew
        · exact Or.inl hold
        · exact Or.inr ⟨e, List.mem_cons_self _ _, by rw [hnew]⟩
      · exact Or.inr ⟨x, List.mem_cons_of_mem _ hx, hxk⟩

/-- The structural invariant of the rule store: every stored key is canonical
(a fixed point of canonicalization), its rule's internal patterns are exactly
the parse of the stored key, and all patterns are non-empty strings. -/
def rulesInv (p : Provider) : Prop :=
  ∀ kv ∈ p.rules,
    canonKey kv.1 = kv.1 ∧
    objGet kv.2 "$p" = some (JSVal.list (parseGlobMultiPattern kv.1)) ∧
    ∀ x ∈ parseGlobMultiPattern kv.1, x ≠ ""

theorem useRule_inv (p : Provider) (g : String) (a : RuleArg) (q : Provider) (k : String)
    (h : _useRule p g a = Except.ok (q, k)) (hp : rulesInv p) : rulesInv q := by
  obtain ⟨r0, hw, hk, hrules, happ⟩ := useRule_ok_shape p g a q k h
  intro kv hkv
  rcases mem_storeSet _ _ _ kv (hrules ▸ hkv) with hold | hnew
  · exact hp kv hold
  · subst hnew
    refine ⟨canonKey_idem g, ?_, ?_⟩
    · rw [objGet_set_self]
      rw [show (canonKey g : String) = canonKey g from rfl, parseGlob_canonKey]
    · intro x hx
      exact parseGlob_ne_empty _ x hx

theorem runRules_inv (es : List (String × RuleArg)) :
    ∀ p q : Provider, runRules p es = Except.ok q → rulesInv p → rulesInv q := by
  induction es with
  | nil =>
    intro p q h hp
    injection h with h1
    subst h1
    exact hp
  | cons e es ih =>
    intro p q h hp
    rw [runRules] at h
    cases hu : _useRule p e.1 e.2 with
    | error m =>
      rw [hu] at h
      exact absurd h (by simp)
    | ok r =>
      rw [hu] at h
      obtain ⟨q1, k1⟩ := r
      exact ih q1 q h (useRule_inv p e.1 e.2 q1 k1 hu hp)

/-! ## Properties of the path scan (shallow merge in enumeration order) -/

/-- The field value the shallow merge produces: the value carried by the last
matching rule that defines the field, if any. -/
def lastMatchedField (np : String) (L : List (String × Obj)) (f : String) : Option JSVal :=
  L.foldl (fun acc kv => if ruleMatches np kv then optOr (objGet kv.2 f) acc else acc) none

theorem lastMatchedField_general (np : String) (f : String) (L : List (String × Obj)) :
    ∀ a : Option JSVal,
      L.foldl (fun acc kv => if ruleMatches np kv then optOr (objGet kv.2 f) acc else acc) a
        = optOr (lastMatchedField np L f) a := by
  induction L with
  | nil =>
    intro a
    rfl
  | cons kv L ih =>
    intro a
    rw [List.foldl_cons]
    rw [show lastMatchedField np (kv :: L) f
        = L.foldl (fun acc kv => if ruleMatches np kv then optOr (objGet kv.2 f) acc else acc)
            (if ruleMatches np kv then optOr (objGet kv.2 f) none else none) from rfl]
    rw [ih, ih]
    by_cases hm : ruleMatches np kv
    · rw [if_pos hm, if_pos hm, optOr_assoc, optOr_assoc, optOr_none_left]
    · rw [if_neg hm, if_neg hm, optOr_none_right]

theorem scan_applied (np : String) (L : List (String × Obj)) :
    ∀ acc : List String × Obj,
      (L.foldl (applyScan np) acc).1
        = acc.1 ++ (L.filter (ruleMatches np)).map Prod.fst := by
  induction L with
  | nil =>
    intro acc
    simp
  | cons kv L ih =>
    intro acc
    rw [List.foldl_cons, List.filter_cons]
    by_cases hm : ruleMatches np kv
    · rw [if_pos hm]
      rw [show applyScan np acc kv = (acc.1 ++ [kv.1], objExtend acc.2 kv.2) from by
        unfold applyScan
        rw [if_pos hm]]
      rw [ih]
      simp
    · rw [if_neg hm]
      rw [show applyScan np acc kv = acc from by
        unfold applyScan
        rw [if_neg hm]]
      exact ih acc

theorem scan_field (np : String) (f : String) (L : List (String × Obj)) :
    ∀ acc : List String × Obj,
      objGet (L.foldl (applyScan np) acc).2 f
        = optOr (lastMatchedField np L f) (objGet acc.2 f) := by
  induction L with
  | nil =>
    intro acc
    rfl
  | cons kv L ih =>
    intro acc
    rw [List.foldl_cons]
    rw [show lastMatchedField np (kv :: L) f
        = L.foldl (fun acc kv => if ruleMatches np kv then optOr (objGet kv.2 f) acc else acc)
            (if ruleMatches np kv then optOr (objGet kv.2 f) none else none) from rfl]
    rw [lastMatchedField_general]
    by_cases hm : ruleMatches np kv
    · rw [show applyScan np acc kv = (acc.1 ++ [kv.1], objExtend acc.2 kv.2) from by
        unfold applyScan
        rw [if_pos hm]]
      rw [ih, if_pos hm, objGet_extend, optOr_assoc, optOr_assoc, optOr_none_left]
    · rw [show applyScan np acc kv = acc from by
        unfold applyScan
        rw [if_neg hm]]
      rw [ih, if_neg hm, optOr_none_right]

/-- When no rule matches, no field is produced by the merge. -/
theorem lastMatchedField_of_no_match (np : String) (f : String) (L : List (String × Obj))
    (h : L.filter (ruleMatches np) = []) :
    lastMatchedField np L f = none := by
  induction L with
  | nil => rfl
  | cons kv L ih =>
    rw [List.filter_cons] at h
    by_cases hm : ruleMatches np kv
    · rw [if_pos hm] at h
      exact absurd h (by simp)
    · rw [if_neg hm] at h
      rw [show lastMatchedField np (kv :: L) f
          = L.foldl (fun acc kv => if ruleMatches np kv then optOr (objGet kv.2 f) acc else acc)
              (if ruleMatches np kv then optOr (objGet kv.2 f) none else none) from rfl]
      rw [if_neg hm, lastMatchedField_general]
      rw [ih h, optOr_none_right]

theorem mem_insertNum {α : Type} (x y : String × α) (l : List (String × α)) :
    y ∈ insertNum x l ↔ y = x ∨ y ∈ l := by
  induction l with
  | nil => simp [insertNum]
  | cons z l ih =>
    rw [insertNum]
    by_cases hle : digitsVal x.1.data ≤ digitsVal z.1.data
    · rw [if_pos hle]
      simp
    · rw [if_neg hle]
      rw [List.mem_cons, ih, List.mem_cons]
      tauto

theorem mem_sortNum {α : Type} (y : String × α) (l : List (String × α)) :
    y ∈ sortNum l ↔ y ∈ l := by
  induction l with
  | nil => simp [sortNum]
  | cons z l ih =>
    rw [sortNum, mem_insertNum, ih, List.mem_cons]

/-- Enumeration order is a permutation membership-wise. -/
theorem mem_jsOrder {α : Type} (y : String × α) (l : List (String × α)) :
    y ∈ jsOrder l ↔ y ∈ l := by
  unfold jsOrder
  rw [List.mem_append, mem_sortNum]
  constructor
  · rintro (h | h)
    · exact List.mem_of_mem_filter h
    · exact List.mem_of_mem_filter h
  · intro h
    cases hidx : isArrayIndexKey y.1 with
    | true => exact Or.inl (List.mem_filter.mpr ⟨h, hidx⟩)
    | false => exact Or.inr (List.mem_filter.mpr ⟨h, by rw [hidx]; rfl⟩)

/-! ## The claims -/

/-- Claim C10: `handleResourcePath` throws a type error exactly when its
argument is not a string, and returns null for every string argument,
independent of the provider's rules and counters. -/
theorem C10_handleResourcePath_spec (p : Provider) (v : JSVal) :
    ((∃ m, handleResourcePath p v = Except.error m) ↔ ∀ s, v ≠ JSVal.str s) ∧
    (∀ s, v = JSVal.str s → handleResourcePath p v = Except.ok none) := by
  cases v <;> simp [handleResourcePath]

/-- Witness for C10 at a concrete provider and path string. -/
theorem C10_witness :
    handleResourcePath (freshProvider "app") (JSVal.str "a/b") = Except.ok none :=
  (C10_handleResourcePath_spec (freshProvider "app") (JSVal.str "a/b")).2 "a/b" rfl

/-- Claim C8: one registration bumps exactly the counter matching the action's
kind — callable: dynamicHandlerCount, string: staticRerouteCount, `false`:
staticLockCount, `true` or absent: none — and no other counter. -/
theorem C8_counters_per_kind (p : Provider) (g : String) (a : RuleArg)
    (q : Provider) (k : String) (h : _useRule p g a = Except.ok (q, k)) :
    q.dynamicHandlerCount
        = p.dynamicHandlerCount + (if argKind a = AKind.dyn then 1 else 0) ∧
    q.staticRerouteCount
        = p.staticRerouteCount + (if argKind a = AKind.reroute then 1 else 0) ∧
    q.staticLockCount
        = p.staticLockCount + (if argKind a = AKind.lock then 1 else 0) :=
  useRule_counts p g a q k h

/-- Witness for C8: registering a callable on a fresh provider. -/
theorem C8_witness :
    (Provider.mk "app" [("d/", [("action", JSVal.fn 0), ("$p", JSVal.list ["d/"])])] 1 0 0).dynamicHandlerCount
        = (freshProvider "app").dynamicHandlerCount
          + (if argKind (RuleArg.val (JSVal.fn 0)) = AKind.dyn then 1 else 0) ∧
    (Provider.mk "app" [("d/", [("action", JSVal.fn 0), ("$p", JSVal.list ["d/"])])] 1 0 0).staticRerouteCount
        = (freshProvider "app").staticRerouteCount
          + (if argKind (RuleArg.val (JSVal.fn 0)) = AKind.reroute then 1 else 0) ∧
    (Provider.mk "app" [("d/", [("action", JSVal.fn 0), ("$p", JSVal.list ["d/"])])] 1 0 0).staticLockCount
        = (freshProvider "app").staticLockCount
          + (if argKind (RuleArg.val (JSVal.fn 0)) = AKind.lock then 1 else 0) :=
  C8_counters_per_kind (freshProvider "app") "d/" (RuleArg.val (JSVal.fn 0))
    (Provider.mk "app" [("d/", [("action", JSVal.fn 0), ("$p", JSVal.list ["d/"])])] 1 0 0)
    "d/" (by decide)

/-- Claim C5: a rule registered under the multi-pattern key
"locked | lockedB" with action `false` applies to both constituent paths:
resolving "locked/" and "lockedB/" both yield action `false`. -/
theorem C5_multipattern_lock :
    ((_useRule (freshProvider "app") "locked | lockedB" (RuleArg.val (JSVal.boo false))).map
      (fun r => (objGet (getRulesFor r.1 "locked/") "action",
                 objGet (getRulesFor r.1 "lockedB/") "action")))
    = Except.ok (some (JSVal.boo false), some (JSVal.boo false)) := by
  decide

/-- Claim C6: key normalization is idempotent — for a key with no empty
segment between " | " separators, parsing and re-joining returns the key
unchanged. -/
theorem C6_canonicalization_idempotent (k : String)
    (h : ∀ seg ∈ splitSep k.data, seg ≠ []) :
    stringifyGlobMultiPattern (parseGlobMultiPattern k) = k := by
  unfold parseGlobMultiPattern stringifyGlobMultiPattern parseChars
  rw [List.map_map]
  rw [show (String.data ∘ String.mk) = id from funext (fun l => rfl), List.map_id]
  rw [List.filter_eq_self.mpr (fun x hx => by
    cases hx2 : x with
    | nil => exact absurd hx2 (h x hx)
    | cons c cs => rfl)]
  rw [joinSep_splitSep]

/-- Witness for C6 at the concrete two-pattern key of the test suite. -/
theorem C6_witness :
    stringifyGlobMultiPattern (parseGlobMultiPattern "locked | lockedB")
      = "locked | lockedB" :=
  C6_canonicalization_idempotent "locked | lockedB" (by decide)

/-- Claim C1, counterexample: registering the same canonical key "locked/"
twice with a lock action leaves one stored lock rule but a staticLockCount of
2 — the second registration increments the counter again, so counters do not
equal the stored-rule counts. -/
theorem C1_counterexample :
    ((_useRule (freshProvider "app") "locked/" (RuleArg.val (JSVal.boo false))).bind
      (fun r1 => (_useRule r1.1 "locked/" (RuleArg.val (JSVal.boo false))).map
        (fun r2 => (r2.1.staticLockCount,
                    r2.1.rules.countP (fun kv => actionKind kv.2 == AKind.lock)))))
    = Except.ok (2, 1) ∧ (2 : Nat) ≠ 1 := by
  constructor
  · decide
  · decide

/-- Claim C1 (amended): re-registering the exact same canonical key replaces
the prior stored rule in place (same key set, same store length, the stored
rule is the new one) but still increments the matching kind counter; hence
after any successful registration sequence each counter equals the starting
counter plus the number of registrations (not stored rules) of that kind. -/
theorem C1_amended_overwrite_increments_counters
    (p : Provider) (es : List (String × RuleArg)) (q : Provider)
    (hq : runRules p es = Except.ok q)
    (g : String) (a1 a2 : RuleArg) (q1 q2 : Provider) (k1 k2 : String)
    (h1 : _useRule q g a1 = Except.ok (q1, k1))
    (h2 : _useRule q1 g a2 = Except.ok (q2, k2)) :
    (q.dynamicHandlerCount = p.dynamicHandlerCount + kindCount es AKind.dyn ∧
     q.staticRerouteCount = p.staticRerouteCount + kindCount es AKind.reroute ∧
     q.staticLockCount = p.staticLockCount + kindCount es AKind.lock) ∧
    k2 = k1 ∧
    q2.rules.length = q1.rules.length ∧
    (∃ r0, wrapRule a2 = some r0 ∧
      q2.rules.find? (fun kv => kv.1 == k1)
        = some (k1, objSet r0 "$p" (JSVal.list (parseGlobMultiPattern g)))) ∧
    q2.staticLockCount
      = q1.staticLockCount + (if argKind a2 = AKind.lock then 1 else 0) := by
  obtain ⟨r1, hw1, hk1, hrules1, _⟩ := useRule_ok_shape q g a1 q1 k1 h1
  obtain ⟨r2, hw2, hk2, hrules2, _⟩ := useRule_ok_shape q1 g a2 q2 k2 h2
  have hmem1 : (canonKey g, objSet r1 "$p" (JSVal.list (parseGlobMultiPattern g)))
      ∈ q1.rules := by
    rw [hrules1]
    exact List.mem_of_find?_eq_some (storeSet_find_self _ _ _)
  have hany : q1.rules.any (fun kv => kv.1 == canonKey g) :=
    List.any_eq_true.mpr ⟨_, hmem1, by simp⟩
  refine ⟨runRules_counts es p q hq, by rw [hk1, hk2], ?_, ?_, ?_⟩
  · rw [hrules2]
    exact storeSet_length_of_mem _ _ _ hany
  · refine ⟨r2, hw2, ?_⟩
    rw [hrules2, hk1]
    exact storeSet_find_self _ _ _
  · exact (useRule_counts q1 g a2 q2 k2 h2).2.2

/-- Witness for the amended C1: the double lock registration of the
counterexample, where the lock counter goes from 1 to 2. -/
theorem C1_amended_witness :
    (Provider.mk "app"
        [("locked/", [("action", JSVal.boo false), ("$p", JSVal.list ["locked/"])])] 0 0 2).staticLockCount
      = (Provider.mk "app"
          [("locked/", [("action", JSVal.boo false), ("$p", JSVal.list ["locked/"])])] 0 0 1).staticLockCount
        + (if argKind (RuleArg.val (JSVal.boo false)) = AKind.lock then 1 else 0) :=
  (C1_amended_overwrite_increments_counters (freshProvider "app") [] (freshProvider "app") rfl
    "locked/" (RuleArg.val (JSVal.boo false)) (RuleArg.val (JSVal.boo false))
    (Provider.mk "app"
      [("locked/", [("action", JSVal.boo false), ("$p", JSVal.list ["locked/"])])] 0 0 1)
    (Provider.mk "app"
      [("locked/", [("action", JSVal.boo false), ("$p", JSVal.list ["locked/"])])] 0 0 2)
    "locked/" "locked/" (by decide) (by decide)).2.2.2.2

/-- Claim C3, counterexample: registration accepts the key "" (it is a
string), and stores a rule under the empty — hence not non-empty — key with an
empty patterns sequence. -/
theorem C3_counterexample :
    ((_useRule (freshProvider "app") "" (RuleArg.val (JSVal.boo false))).map
      (fun r => (r.2, r.1.rules.map Prod.fst,
        (r.1.rules.find? (fun kv => kv.1 == "")).map (fun kv => objGet kv.2 "$p"))))
    = Except.ok ("", [""], some (some (JSVal.list []))) := by
  decide

/-- Claim C3 (amended): after construction and after every accepted
registration, every stored key is canonical — a fixed point of
parse-then-re-join — its rule's `$p` equals the parse of its key, and every
individual pattern is a non-empty string; but the key itself (and with it the
patterns sequence) may be empty, when the registered key had no non-empty
segment. -/
theorem C3_amended_store_invariant (appId : String) (es : List (String × RuleArg))
    (q : Provider) (hq : runRules (freshProvider appId) es = Except.ok q) :
    rulesInv q :=
  runRules_inv es (freshProvider appId) q hq (fun kv hkv => absurd hkv (by simp [freshProvider]))

/-- Witness for the amended C3: the store after registering the empty key and
a two-pattern key satisfies the invariant. -/
theorem C3_amended_witness :
    rulesInv ((runRules (freshProvider "app")
        [("", RuleArg.val (JSVal.boo false)),
         ("locked | lockedB", RuleArg.val (JSVal.boo false))]).toOption.getD
      (freshProvider "app")) :=
  C3_amended_store_invariant "app"
    [("", RuleArg.val (JSVal.boo false)),
     ("locked | lockedB", RuleArg.val (JSVal.boo false))]
    _ (by decide)

/-- Claim C9, counterexample: on a provider with no registrations at all,
exact lookup of the never-registered keys "toString" and "constructor" does
not return an absent result — `this._rules[globs]` is a JavaScript property
read, so it yields the member inherited from Object.prototype. -/
theorem C9_counterexample :
    getRule (freshProvider "app") "toString" = PropRead.proto "toString" ∧
    getRule (freshProvider "app") "toString" ≠ PropRead.undef ∧
    getRule (freshProvider "app") "constructor" = PropRead.proto "constructor" := by
  refine ⟨by decide, by decide, by decide⟩

/-- Claim C9 (amended): after registering a rule under a key, exact lookup of
that key returns the stored record, whose action equals the registered action
(whatever its kind); for a key whose canonical form was never registered, the
lookup is a JavaScript property read on the rules object: when the canonical
key names an Object.prototype member (toString, constructor, valueOf,
hasOwnProperty, ...) it returns that inherited member, and only otherwise an
absent/undefined result — which is distinguishable by construction both from
a stored rule whose action is `false` or the empty string and from an
inherited member. -/
theorem C9_amended_getRule_lookup (appId : String) (es : List (String × RuleArg)) (q : Provider)
    (hq : runRules (freshProvider appId) es = Except.ok q)
    (k : String) (a : RuleArg) (r0 : Obj) (v : JSVal)
    (hw : wrapRule a = some r0) (hv : objGet r0 "action" = some v)
    (q2 : Provider) (ck : String) (h2 : _useRule q k a = Except.ok (q2, ck)) :
    (∃ r, getRule q2 k = PropRead.own r ∧ objGet r "action" = some v) ∧
    ((∀ e ∈ es, canonKey e.1 ≠ canonKey k) →
      getRule q k = if objectPrototypeMembers.contains (canonKey k) then
          PropRead.proto (canonKey k)
        else
          PropRead.undef) := by
  constructor
  · obtain ⟨r0x, hwx, hkx, hrules, _⟩ := useRule_ok_shape q k a q2 ck h2
    have hr0 : r0x = r0 := by
      rw [hw] at hwx
      injection hwx with hinj
      exact hinj.symm
    subst hr0
    refine ⟨objSet r0x "$p" (JSVal.list (parseGlobMultiPattern k)), ?_, ?_⟩
    · unfold getRule
      rw [hrules, storeSet_find_self]
    · rw [objGet_set_ne _ _ _ _ (by decide)]
      exact hv
  · intro hnone
    unfold getRule
    have hfind : q.rules.find? (fun kv => kv.1 == canonKey k) = none := by
      rw [List.find?_eq_none]
      intro kv hkv
      rcases runRules_keys es (freshProvider appId) q hq kv hkv with hin | ⟨e, he, hek⟩
      · exact absurd hin (by simp [freshProvider])
      · simp only [beq_iff_eq]
        rw [hek]
        exact hnone e he
    rw [hfind]

/-- Witness for the amended C9: a lock registered and looked up under
"lockedDir/", and a lookup of the never-registered key "lockedDir/" (not an
Object.prototype member name) coming back undefined. -/
theorem C9_amended_witness :
    (∃ r, getRule (Provider.mk "app"
        [("a/", [("action", JSVal.boo true), ("$p", JSVal.list ["a/"])]),
         ("lockedDir/", [("action", JSVal.boo false), ("$p", JSVal.list ["lockedDir/"])])] 0 0 1)
        "lockedDir/" = PropRead.own r ∧ objGet r "action" = some (JSVal.boo false)) ∧
    getRule (Provider.mk "app"
        [("a/", [("action", JSVal.boo true), ("$p", JSVal.list ["a/"])])] 0 0 0)
      "lockedDir/" = PropRead.undef := by
  have h := C9_amended_getRule_lookup "app" [("a/", RuleArg.val (JSVal.boo true))]
    (Provider.mk "app" [("a/", [("action", JSVal.boo true), ("$p", JSVal.list ["a/"])])] 0 0 0)
    (by decide) "lockedDir/" (RuleArg.val (JSVal.boo false)) [("action", JSVal.boo false)]
    (JSVal.boo false) (by decide) (by decide)
    (Provider.mk "app"
      [("a/", [("action", JSVal.boo true), ("$p", JSVal.list ["a/"])]),
       ("lockedDir/", [("action", JSVal.boo false), ("$p", JSVal.list ["lockedDir/"])])] 0 0 1)
    "lockedDir/" (by decide)
  refine ⟨h.1, ?_⟩
  rw [h.2 (by decide)]
  decide

/-- Claim C7, counterexample: with a string appId but a config whose rules
hold an unsupported value (a number-like value), construction fails — so a
string appId does not make construction succeed for every present config. -/
theorem C7_counterexample :
    mkProvider (JSVal.str "app") (some ⟨some [("k", RuleArg.val (JSVal.other 0))]⟩)
      = Except.error "rule is no supported Rule type/config" := by
  decide

/-- Claim C7 (amended): construction with a non-string appId always fails with
the appId type error; construction with a string appId succeeds exactly when
every entry of config.rules is a supported rule shape — in particular it
always succeeds when the config is absent or carries no rules. -/
theorem C7_amended_construction (appId : JSVal) (config : Option JSConfig) :
    ((∀ s, appId ≠ JSVal.str s) →
      mkProvider appId config = Except.error "appId is no string") ∧
    (∀ s, appId = JSVal.str s →
      ((∃ q, mkProvider appId config = Except.ok q)
        ↔ ∀ e ∈ (config.bind JSConfig.rules).getD [], wrapRule e.2 ≠ none)) := by
  constructor
  · intro hns
    cases appId with
    | str s => exact absurd rfl (hns s)
    | fn i => rfl
    | boo b => rfl
    | list l => rfl
    | other i => rfl
  · rintro s rfl
    show (∃ q, runRules (freshProvider s)
        (jsOrder ((config.bind JSConfig.rules).getD [])) = Except.ok q) ↔ _
    constructor
    · intro hex e he
      exact (runRules_ok_iff _ _).mp hex e ((mem_jsOrder e _).mpr he)
    · intro hall
      exact (runRules_ok_iff _ _).mpr (fun e he => hall e ((mem_jsOrder e _).mp he))

/-- Witness for the amended C7: a non-string appId fails; a string appId with
a well-formed one-rule config succeeds. -/
theorem C7_amended_witness :
    mkProvider (JSVal.other 7) none = Except.error "appId is no string" ∧
    (∃ q, mkProvider (JSVal.str "app")
        (some ⟨some [("locked/", RuleArg.val (JSVal.boo false))]⟩) = Except.ok q) := by
  have h1 := (C7_amended_construction (JSVal.other 7) none).1
    (by intro s h; cases h)
  have h2 := ((C7_amended_construction (JSVal.str "app")
      (some ⟨some [("locked/", RuleArg.val (JSVal.boo false))]⟩)).2 "app" rfl).mpr
    (by decide)
  exact ⟨h1, h2⟩

/-- Claim C2, counterexample: with the key "42 | other" registered first
(action false) and the array-index key "42" registered second (action true),
resolving "42" applies the rules in enumeration order — "42" first — so the
EARLIER-registered rule provides the final action (false), not the
later-registered one (true), contradicting registration-order merging. -/
theorem C2_counterexample :
    ((runRules (freshProvider "app")
        [("42 | other", RuleArg.val (JSVal.boo false)),
         ("42", RuleArg.val (JSVal.boo true))]).map
      (fun q => (objGet (getRulesFor q "42") "action",
                 objGet (getRulesFor q "42") "$ps")))
    = Except.ok (some (JSVal.boo false), some (JSVal.list ["42", "42 | other"])) ∧
    some (JSVal.boo false) ≠ some (JSVal.boo true) := by
  constructor
  · decide
  · decide

/-- Claim C2 (amended): path resolution iterates the stored rules in
own-property enumeration order — array-index keys first in ascending numeric
order, then the remaining keys in insertion (registration) order, the two
orders coinciding when no key is an array index — and shallow-merges every
matching rule's fields, later-iterated rules overriding earlier ones field by
field; for the non-index keys "locked/" (action false, first) and
"locked/unlocked" (action true, second), resolution behaves as the claim
states: "locked/unlocked/" yields action true and "locked/" yields false. -/
theorem C2_amended_merge_enumeration_order (p : Provider) (path f : String)
    (hf : f ≠ "$p" ∧ f ≠ "$ps" ∧ f ≠ "$target") :
    objGet (getRulesFor p path) f
      = lastMatchedField (_normalizeResourcePath path) (jsOrder p.rules) f ∧
    ((runRules (freshProvider "app")
        [("locked/", RuleArg.val (JSVal.boo false)),
         ("locked/unlocked", RuleArg.val (JSVal.boo true))]).map
      (fun q => (objGet (getRulesFor q "locked/unlocked/") "action",
                 objGet (getRulesFor q "locked/") "action")))
    = Except.ok (some (JSVal.boo true), some (JSVal.boo false)) := by
  constructor
  · have hmain : getRulesFor p path
        = objSet (objSet (objDelete ((jsOrder p.rules).foldl
              (applyScan (_normalizeResourcePath path)) ([], [])).2 "$p")
            "$ps" (JSVal.list ((jsOrder p.rules).foldl
              (applyScan (_normalizeResourcePath path)) ([], [])).1))
          "$target" (JSVal.str (_normalizeResourcePath path)) := rfl
    rw [hmain]
    rw [objGet_set_ne _ _ _ _ hf.2.2, objGet_set_ne _ _ _ _ hf.2.1,
      objGet_delete_ne _ _ _ hf.1, scan_field]
    exact optOr_none_right _
  · decide

/-- Witness for the amended C2: reading the merged action of a one-rule store
through the merge characterization. -/
theorem C2_amended_witness :
    objGet (getRulesFor (Provider.mk "app"
        [("locked/", [("action", JSVal.boo false), ("$p", JSVal.list ["locked/"])])] 0 0 1)
      "locked/") "action" = some (JSVal.boo false) := by
  have h := (C2_amended_merge_enumeration_order (Provider.mk "app"
      [("locked/", [("action", JSVal.boo false), ("$p", JSVal.list ["locked/"])])] 0 0 1)
      "locked/" "action" (by decide)).1
  rw [h]
  decide

/-- Claim C4, counterexample: the appliedPatterns list is in enumeration
order, not registration order — registering "7 | seven" before the
array-index key "7" still reports "7" first. -/
theorem C4_counterexample :
    ((runRules (freshProvider "app")
        [("7 | seven", RuleArg.val (JSVal.boo false)),
         ("7", RuleArg.val (JSVal.boo true))]).map
      (fun q => objGet (getRulesFor q "7") "$ps"))
    = Except.ok (some (JSVal.list ["7", "7 | seven"])) ∧
    (["7", "7 | seven"] : List String) ≠ ["7 | seven", "7"] := by
  constructor
  · decide
  · decide

/-- Claim C4 (amended): for every string path, resolution is total (it never
throws): the internal `$p` field is removed from the result, `$ps` lists the
canonical keys of the matching rules in own-property enumeration order (equal
to registration order when no key is an array index), `$target` is the
normalized input path, and when no rule matches the result has an absent
action (and an empty `$ps`) rather than an error. -/
theorem C4_amended_resolution_shape (p : Provider) (path : String) :
    objGet (getRulesFor p path) "$p" = none ∧
    objGet (getRulesFor p path) "$ps" = some (JSVal.list
      (((jsOrder p.rules).filter (ruleMatches (_normalizeResourcePath path))).map Prod.fst)) ∧
    objGet (getRulesFor p path) "$target"
      = some (JSVal.str (_normalizeResourcePath path)) ∧
    ((jsOrder p.rules).filter (ruleMatches (_normalizeResourcePath path)) = [] →
      objGet (getRulesFor p path) "action" = none) := by
  have hmain : getRulesFor p path
      = objSet (objSet (objDelete ((jsOrder p.rules).foldl
            (applyScan (_normalizeResourcePath path)) ([], [])).2 "$p")
          "$ps" (JSVal.list ((jsOrder p.rules).foldl
            (applyScan (_normalizeResourcePath path)) ([], [])).1))
        "$target" (JSVal.str (_normalizeResourcePath path)) := rfl
  refine ⟨?_, ?_, ?_, ?_⟩
  · rw [hmain, objGet_set_ne _ _ _ _ (by decide), objGet_set_ne _ _ _ _ (by decide),
      objGet_delete_self]
  · rw [hmain, objGet_set_ne _ _ _ _ (by decide), objGet_set_self]
    rw [scan_applied]
    rfl
  · rw [hmain, objGet_set_self]
  · intro hnone
    rw [hmain, objGet_set_ne _ _ _ _ (by decide), objGet_set_ne _ _ _ _ (by decide),
      objGet_delete_ne _ _ _ (by decide), scan_field,
      lastMatchedField_of_no_match _ _ _ hnone]
    rfl

/-- Witness for the amended C4: a provider with no rules resolves any path to
an empty decision with no action. -/
theorem C4_amended_witness :
    objGet (getRulesFor (freshProvider "app") "nope/") "action" = none ∧
    objGet (getRulesFor (freshProvider "app") "nope/") "$ps" = some (JSVal.list []) := by
  have h := C4_amended_resolution_shape (freshProvider "app") "nope/"
  refine ⟨h.2.2.2 (by decide), ?_⟩
  rw [h.2.1]
  decide
